import Mathlib

/-!
Verification of the command-validation engine of `security.py`
(`split_command_segments`, `extract_commands`, `validate_pkill_command`,
`validate_chmod_command`, `validate_init_script`, `validate_command`).

The Python code is shallowly embedded: strings are Lean `String`s
(lists of characters), Python's `shlex.split` (POSIX mode with
`whitespace_split`) is the explicit state machine `shlexCore`, and the
two `re.split` patterns used by the source are the scanners `ampScanF`
(pattern `\s*(?:&&|\|\|)\s*`) and `semiScanF`
(pattern `(?<!["\'])\s*;\s*(?!["\'])`), modelling Python's leftmost
scan with greedy backtracking.  Regex `\s`, `str.strip()` and
`str.split()` whitespace is modelled by the six ASCII whitespace
characters.  The one uncaught exception reachable in the source (an
`IndexError` in `validate_pkill_command` when the target is a quoted
whitespace-only word) is modelled by `Option`: `validate_command`
returns `none` exactly when the Python code raises.
-/

namespace SecurityHooks

/-- ASCII whitespace as matched by Python's regex `\s`, `str.strip()` and
`str.split()` on ASCII text: space, tab, newline, carriage return,
vertical tab, form feed. -/
def pyWs (c : Char) : Bool :=
  c = ' ' || c = '\t' || c = '\n' || c = '\r' || c = '\x0b' || c = '\x0c'

/-- The `shlex` lexer's whitespace set (`shlex.whitespace = " \t\r\n"`). -/
def shlexWs (c : Char) : Bool :=
  c = ' ' || c = '\t' || c = '\r' || c = '\n'

/-- A quote character (`'"'` or `'\''`), as used by the semicolon-splitting
regex lookarounds and by `shlex`. -/
def isQuoteCh (c : Char) : Bool :=
  c = '"' || c = '\''

/-- Does the character list `l` start with `p`? (Python `str.startswith`.) -/
def startsWithList : List Char → List Char → Bool
  | _, [] => true
  | [], _ :: _ => false
  | c :: cs, p :: ps => c = p && startsWithList cs ps

/-- Does `l` contain `pat` as a contiguous run? (Python `pat in l`.) -/
def hasSubList : List Char → List Char → Bool
  | [], pat => pat.isEmpty
  | l@(_ :: rest), pat => startsWithList l pat || hasSubList rest pat

/-- Drop trailing characters satisfying `pyWs` (the right half of
Python's `str.strip()`). -/
def dropTrailWs : List Char → List Char
  | [] => []
  | c :: rest =>
    match dropTrailWs rest with
    | [] => if pyWs c then [] else [c]
    | r => c :: r

/-- Python `str.strip()` on a character list: remove leading and trailing
whitespace. -/
def stripList (l : List Char) : List Char :=
  dropTrailWs (l.dropWhile pyWs)

/-- Python `str.strip()`. -/
def stripPy (s : String) : String :=
  String.mk (stripList s.data)

/-- Python `os.path.basename`: everything after the last `'/'`. -/
def basename (s : String) : String :=
  String.mk ((s.data.reverse.takeWhile (fun c => c ≠ '/')).reverse)

/-- First character test (Python `token.startswith("-")` and the like,
for a one-character needle). -/
def headIs (s : String) (c : Char) : Bool :=
  s.data.head? = some c

/-- Python `s.endswith(suf)`. -/
def pyEndsWith (s suf : String) : Bool :=
  startsWithList s.data.reverse suf.data.reverse

/-- Python `str.split()` with no separator: split on runs of whitespace,
dropping empty words.  `acc` is the current word, reversed. -/
def splitWsAux : List Char → List Char → List String
  | [], [] => []
  | [], acc => [String.mk acc.reverse]
  | c :: rest, acc =>
    if pyWs c then
      match acc with
      | [] => splitWsAux rest []
      | _ => String.mk acc.reverse :: splitWsAux rest []
    else splitWsAux rest (c :: acc)

/-- Python `str.split()` (no arguments). -/
def pySplitWs (s : String) : List String :=
  splitWsAux s.data []

/-- States of the `shlex` POSIX lexer with `whitespace_split = True`:
between tokens (`ws`), inside an unquoted word (`word`), inside single
or double quotes (`sq`, `dq`), after a backslash outside quotes
(`escW`) and after a backslash inside double quotes (`escD`). -/
inductive ShState where
  | ws | word | sq | dq | escW | escD
deriving DecidableEq

/-- Emit the pending token at end of input: a token is produced if it is
non-empty or came from quotes (`posix` rule dropping empty unquoted
results). -/
def shlexFinish (tok : List Char) (quoted : Bool) (acc : List String) : List String :=
  if tok ≠ [] || quoted then (String.mk tok.reverse :: acc).reverse else acc.reverse

/-- The `shlex.split` state machine (POSIX, `whitespace_split`,
no comment characters).  `tok` is the current token reversed, `quoted`
records whether the current token saw a quote, `acc` holds finished
tokens reversed.  `none` models `ValueError` ("No closing quotation" /
"No escaped character"). -/
def shlexCore : List Char → ShState → List Char → Bool → List String → Option (List String)
  | [], .ws, tok, quoted, acc => some (shlexFinish tok quoted acc)
  | [], .word, tok, quoted, acc => some (shlexFinish tok quoted acc)
  | [], .sq, _, _, _ => none
  | [], .dq, _, _, _ => none
  | [], .escW, _, _, _ => none
  | [], .escD, _, _, _ => none
  | c :: rest, .ws, tok, quoted, acc =>
    if shlexWs c then
      if tok ≠ [] || quoted then shlexCore rest .ws [] false (String.mk tok.reverse :: acc)
      else shlexCore rest .ws tok quoted acc
    else if c = '\\' then shlexCore rest .escW tok quoted acc
    else if c = '\'' then shlexCore rest .sq tok quoted acc
    else if c = '"' then shlexCore rest .dq tok quoted acc
    else shlexCore rest .word (c :: tok) quoted acc
  | c :: rest, .word, tok, quoted, acc =>
    if shlexWs c then
      if tok ≠ [] || quoted then shlexCore rest .ws [] false (String.mk tok.reverse :: acc)
      else shlexCore rest .ws tok quoted acc
    else if c = '\'' then shlexCore rest .sq tok quoted acc
    else if c = '"' then shlexCore rest .dq tok quoted acc
    else if c = '\\' then shlexCore rest .escW tok quoted acc
    else shlexCore rest .word (c :: tok) quoted acc
  | c :: rest, .sq, tok, _, acc =>
    if c = '\'' then shlexCore rest .word tok true acc
    else shlexCore rest .sq (c :: tok) true acc
  | c :: rest, .dq, tok, _, acc =>
    if c = '"' then shlexCore rest .word tok true acc
    else if c = '\\' then shlexCore rest .escD tok true acc
    else shlexCore rest .dq (c :: tok) true acc
  | c :: rest, .escW, tok, quoted, acc => shlexCore rest .word (c :: tok) quoted acc
  | c :: rest, .escD, tok, quoted, acc =>
    if c = '\\' || c = '"' then shlexCore rest .dq (c :: tok) quoted acc
    else shlexCore rest .dq (c :: '\\' :: tok) quoted acc

/-- Python `shlex.split(s)` (`posix=True`, `whitespace_split=True`);
`none` models the `ValueError` raised on unbalanced quoting or a
trailing escape. -/
def shlexSplit (s : String) : Option (List String) :=
  shlexCore s.data .ws [] false []

/-- Attempt a match of `\s*(?:&&|\|\|)\s*` at the head of `l`.  The
leading `\s*` can only succeed by consuming the maximal whitespace run
in front of the operator (the operator characters are not whitespace),
and the trailing `\s*` is greedy with nothing after it.  Returns the
rest of the input after the match. -/
def matchAmp (l : List Char) : Option (List Char) :=
  match l.dropWhile pyWs with
  | '&' :: '&' :: r => some (r.dropWhile pyWs)
  | '|' :: '|' :: r => some (r.dropWhile pyWs)
  | _ => none

/-- The scan loop of `re.split(r"\s*(?:&&|\|\|)\s*", ·)`: try a match at
every position from the left; on a match emit the piece accumulated so
far and continue after the match.  `fuel` bounds the number of steps
(each step consumes at least one character, so `length + 1` is always
enough); `acc` is the current piece reversed. -/
def ampScanF : Nat → List Char → List Char → List (List Char)
  | 0, l, acc => [acc.reverse ++ l]
  | _ + 1, [], acc => [acc.reverse]
  | fuel + 1, c :: rest, acc =>
    match matchAmp (c :: rest) with
    | some r => acc.reverse :: ampScanF fuel r []
    | none => ampScanF fuel rest (c :: acc)

/-- Python `re.split(r"\s*(?:&&|\|\|)\s*", s)`. -/
def ampSplitStr (s : String) : List String :=
  (ampScanF (s.data.length + 1) s.data []).map String.mk

/-- Attempt a match of `\s*;\s*(?!["\'])` at the head of `l` (the
lookbehind `(?<!["\'])` is checked by the caller).  The leading `\s*`
must reach a `';'`; the trailing `\s*` is greedy but backs off one
character when the following character is a quote (the character given
back is whitespace, so the lookahead then succeeds); if the `';'` is
immediately followed by a quote the match fails.  Returns the rest of
the input after the match. -/
def matchSemi (l : List Char) : Option (List Char) :=
  match l.dropWhile pyWs with
  | ';' :: rest2 =>
    match rest2.dropWhile pyWs with
    | [] => some []
    | d :: _ =>
      if isQuoteCh d then
        match (rest2.takeWhile pyWs).getLast? with
        | some w => some (w :: rest2.dropWhile pyWs)
        | none => none
      else some (rest2.dropWhile pyWs)
  | _ => none

/-- The scan loop of `re.split` for the quote-guarded semicolon pattern
`(?<!["\'])\s*;\s*(?!["\'])`.  `prev` is the character just before the
current position in the original string (`none` at the start), used for
the lookbehind; every character inside a matched separator is
whitespace or `';'`, never a quote, so `';'` is passed as the previous
character after a match. -/
def semiScanF : Nat → Option Char → List Char → List Char → List (List Char)
  | 0, _, l, acc => [acc.reverse ++ l]
  | _ + 1, _, [], acc => [acc.reverse]
  | fuel + 1, prev, c :: rest, acc =>
    if (prev.map isQuoteCh).getD false then semiScanF fuel (some c) rest (c :: acc)
    else
      match matchSemi (c :: rest) with
      | some r => acc.reverse :: semiScanF fuel (some ';') r []
      | none => semiScanF fuel (some c) rest (c :: acc)

/-- Python `re.split(r'(?<!["\'])\s*;\s*(?!["\'])', s)`, the
semicolon split shared by `extract_commands` and
`split_command_segments`. -/
def semiSplitStr (s : String) : List String :=
  (semiScanF (s.data.length + 1) none s.data []).map String.mk

/-- Shell control-flow keywords skipped by the extractor. -/
def shellKeywords : List String :=
  ["if", "then", "else", "elif", "fi", "for", "while",
   "until", "do", "done", "case", "esac", "in", "!", "\x7b", "\x7d"]

/-- The token walk of `extract_commands` over one segment's tokens:
operators reset the expect-a-command flag, keywords/flags/assignments
are skipped, and any other token in command position contributes its
basename. -/
def extractTokens : Bool → List String → List String
  | _, [] => []
  | expect, t :: rest =>
    if t = "|" || t = "||" || t = "&&" || t = "&" then extractTokens true rest
    else if t ∈ shellKeywords then extractTokens expect rest
    else if headIs t '-' then extractTokens expect rest
    else if '=' ∈ t.data && !headIs t '=' then extractTokens expect rest
    else if expect then basename t :: extractTokens false rest
    else extractTokens expect rest

/-- The per-segment loop of `extract_commands`: strip each segment, skip
empty ones, tokenize with `shlex`; a tokenization failure aborts the
whole extraction (`none`, Python's early `return []`). -/
def extractSegs : List String → Option (List String)
  | [] => some []
  | seg :: rest =>
    let seg' := stripPy seg
    if seg' = "" then extractSegs rest
    else
      match shlexSplit seg' with
      | none => none
      | some toks => (extractSegs rest).map (fun cs => extractTokens true toks ++ cs)

/-- `extract_commands` from `security.py`: split the whole input on
quote-guarded semicolons, then walk each segment's `shlex` tokens. -/
def extract_commands (s : String) : List String :=
  (extractSegs (semiSplitStr s)).getD []

/-- `split_command_segments` from `security.py`: split on `&&`/`||`,
then on quote-guarded semicolons, strip, and drop empties. -/
def split_command_segments (s : String) : List String :=
  ((ampSplitStr s).map
    (fun seg => ((semiSplitStr seg).map stripPy).filter (fun x => x ≠ ""))).flatten

/-- `ALLOWED_COMMANDS` from `security.py` (a Python set; only membership
is ever used). -/
def ALLOWED_COMMANDS : List String :=
  ["ls", "cat", "head", "tail", "wc", "grep",
   "cp", "mkdir", "chmod", "rm", "mv",
   "pwd",
   "npm", "node", "npx",
   "git",
   "ps", "lsof", "sleep", "pkill",
   "init.sh"]

/-- `COMMANDS_NEEDING_EXTRA_VALIDATION` from `security.py`. -/
def EXTRA_VALIDATION : List String :=
  ["pkill", "chmod", "init.sh"]

/-- The `allowed_process_names` set of `validate_pkill_command`. -/
def allowed_process_names : List String :=
  ["node", "npm", "npx", "vite", "next"]

/-- The rejection message
`f"pkill only allowed for dev processes: \x7ballowed_process_names\x7d"`.
Python renders the set in an unspecified (hash-dependent) order; the
model fixes the source-declaration order.  No order mentions the
rejected target. -/
def pkillDenyMsg : String :=
  "pkill only allowed for dev processes: " ++
    "\x7b'node', 'npm', 'npx', 'vite', 'next'\x7d"

/-- `target = args[-1]; if " " in target: target = target.split()[0]` —
`none` models the `IndexError` raised when the split of a
whitespace-only target is empty. -/
def pkillTarget (a : String) : Option String :=
  if ' ' ∈ a.data then (pySplitWs a).head? else some a

/-- `validate_pkill_command` from `security.py`; `none` models the
uncaught `IndexError` described at `pkillTarget`. -/
def validate_pkill_command (s : String) : Option (Bool × String) :=
  match shlexSplit s with
  | none => some (false, "Could not parse pkill command")
  | some [] => some (false, "Empty pkill command")
  | some (_ :: ts) =>
    let args := ts.filter (fun t => !headIs t '-')
    match args.getLast? with
    | none => some (false, "pkill requires a process name")
    | some last =>
      match pkillTarget last with
      | none => none
      | some target =>
        if target ∈ allowed_process_names then some (true, "")
        else some (false, pkillDenyMsg)

/-- The argument loop of `validate_chmod_command`: `none` when some
token starts with `'-'` (flags are rejected), otherwise the first
token seen is the mode. -/
def chmodArgs : List String → Option String → Option (Option String)
  | [], m => some m
  | t :: ts, m =>
    if headIs t '-' then none
    else if m.isNone then chmodArgs ts (some t) else chmodArgs ts m

/-- Truthiness of `re.match(r"^[ugoa]*\+x$", m)`: zero or more subject
classes, then `"+x"`, then the end of the string — where Python's `$`
also matches just before one final newline. -/
def chmodModeMatch (m : String) : Bool :=
  match m.data.dropWhile (fun c => c = 'u' || c = 'g' || c = 'o' || c = 'a') with
  | ['+', 'x'] => true
  | ['+', 'x', '\n'] => true
  | _ => false

/-- `validate_chmod_command` from `security.py`. -/
def validate_chmod_command (s : String) : Bool × String :=
  match shlexSplit s with
  | none => (false, "Could not parse chmod command")
  | some [] => (false, "Not a chmod command")
  | some (t0 :: ts) =>
    if t0 = "chmod" then
      match chmodArgs ts none with
      | none => (false, "chmod flags are not allowed")
      | some none => (false, "chmod requires a mode")
      | some (some mode) =>
        if chmodModeMatch mode then (true, "")
        else (false, "chmod only allowed with +x mode, got: " ++ mode)
    else (false, "Not a chmod command")

/-- `validate_init_script` from `security.py`. -/
def validate_init_script (s : String) : Bool × String :=
  match shlexSplit s with
  | none => (false, "Could not parse init script command")
  | some [] => (false, "Empty command")
  | some (script :: _) =>
    if script = "./init.sh" || pyEndsWith script "/init.sh" then (true, "")
    else (false, "Only ./init.sh is allowed, got: " ++ script)

/-- The rejection message for a command basename outside the allowlist. -/
def disallowedMsg (cmd : String) : String :=
  "Command '" ++ cmd ++ "' is not in the allowed commands list"

/-- The segment-search of `validate_command`: the first segment whose own
extraction contains `cmd`, with the whole original command string as
fallback. -/
def segmentFor (cmd : String) (segments : List String) (fallback : String) : String :=
  match segments.find? (fun seg => cmd ∈ extract_commands seg) with
  | some seg => seg
  | none => fallback

/-- The `if cmd == "pkill" / elif "chmod" / elif "init.sh"` dispatch of
`validate_command` (the final branch is unreachable because
`EXTRA_VALIDATION` holds exactly those three names; Python would fall
through the `elif` chain, continuing the loop). -/
def subValidate (cmd seg : String) : Option (Bool × String) :=
  if cmd = "pkill" then validate_pkill_command seg
  else if cmd = "chmod" then some (validate_chmod_command seg)
  else if cmd = "init.sh" then some (validate_init_script seg)
  else some (true, "")

/-- The per-command loop of `validate_command`: allowlist membership,
then (for the three specially-validated commands) the sub-validator on
the owning segment.  `none` models an uncaught exception bubbling out
of `validate_pkill_command`. -/
def checkCmds (command : String) (segments : List String) : List String → Option (Bool × String)
  | [] => some (true, "")
  | cmd :: rest =>
    if cmd ∈ ALLOWED_COMMANDS then
      if cmd ∈ EXTRA_VALIDATION then
        match subValidate cmd (segmentFor cmd segments command) with
        | none => none
        | some (b, reason) =>
          if b then checkCmds command segments rest else some (false, reason)
      else checkCmds command segments rest
    else some (false, disallowedMsg cmd)

/-- `validate_command` from `security.py`; `none` models an uncaught
exception. -/
def validate_command (command : String) : Option (Bool × String) :=
  if command = "" then some (false, "Empty command")
  else if extract_commands command = [] then
    some (false, "Could not parse command: " ++ command)
  else checkCmds command (split_command_segments command) (extract_commands command)

/-- Boolean allowlist membership (used to phrase "the first extracted
command name that is not allowlisted"). -/
def allowedB (c : String) : Bool := c ∈ ALLOWED_COMMANDS

/-- Modelled from the spec's words, for comparison against the code's
`chmodModeMatch` in claim C5: a mode consisting of zero or more subject
classes `u`, `g`, `o`, `a` followed by the literal `+x`, with nothing
after it. -/
def specModeExact (m : String) : Bool :=
  match m.data.dropWhile (fun c => c = 'u' || c = 'g' || c = 'o' || c = 'a') with
  | ['+', 'x'] => true
  | _ => false

/-! ### Helper lemmas about the embedded functions -/

theorem string_mk_data (s : String) : String.mk s.data = s := by
  cases s
  rfl

theorem string_data_eq_nil {s : String} (h : s.data = []) : s = "" := by
  have := string_mk_data s
  rw [h] at this
  exact this.symm

theorem string_append_ne_empty (a b : String) (h : a.data ≠ []) : a ++ b ≠ "" := by
  intro hc
  have hd : (a ++ b).data = a.data ++ b.data := rfl
  rw [hc] at hd
  have : a.data ++ b.data = [] := hd.symm
  rcases List.append_eq_nil.mp this with ⟨h1, _⟩
  exact h h1

theorem mem_of_mem_dropWhile {α : Type} {p : α → Bool} {x : α} :
    ∀ {l : List α}, x ∈ l.dropWhile p → x ∈ l := by
  intro l
  induction l with
  | nil => intro h; simp at h
  | cons c rest ih =>
    intro h
    by_cases hc : p c
    · rw [List.dropWhile_cons_of_pos hc] at h
      exact List.mem_cons_of_mem c (ih h)
    · rwa [List.dropWhile_cons_of_neg hc] at h

theorem dropWhile_head_false {α : Type} {p : α → Bool} :
    ∀ {l t : List α} {a : α}, l.dropWhile p = a :: t → p a = false := by
  intro l
  induction l with
  | nil => intro t a h; simp at h
  | cons c rest ih =>
    intro t a h
    by_cases hc : p c
    · rw [List.dropWhile_cons_of_pos hc] at h
      exact ih h
    · rw [List.dropWhile_cons_of_neg hc] at h
      cases h
      simpa using hc

theorem dropWhile_of_head_false {p : Char → Bool} {a : Char} {t : List Char}
    (h : p a = false) : (a :: t).dropWhile p = a :: t :=
  List.dropWhile_cons_of_neg (by simp [h])

/-- `dropTrailWs` keeps the head of a non-empty result equal to the
original head. -/
theorem dropTrailWs_head :
    ∀ {l r : List Char} {a : Char}, dropTrailWs l = a :: r → ∃ t, l = a :: t := by
  intro l
  induction l with
  | nil => intro r a h; simp [dropTrailWs] at h
  | cons c rest ih =>
    intro r a h
    rw [dropTrailWs] at h
    rcases hr : dropTrailWs rest with _ | ⟨x, xs⟩
    · rw [hr] at h
      by_cases hc : pyWs c
      · simp [hc] at h
      · simp [hc] at h
        exact ⟨rest, by rw [h.1]⟩
    · rw [hr] at h
      cases h
      exact ⟨rest, rfl⟩

theorem dropTrailWs_idem : ∀ (l : List Char), dropTrailWs (dropTrailWs l) = dropTrailWs l := by
  intro l
  induction l with
  | nil => rfl
  | cons c rest ih =>
    rw [dropTrailWs]
    rcases hr : dropTrailWs rest with _ | ⟨x, xs⟩
    · by_cases hc : pyWs c
      · simp [hc, dropTrailWs]
      · simp [hc, dropTrailWs]
    · rw [dropTrailWs, ← hr, ih, hr]

theorem mem_of_mem_dropTrailWs {x : Char} :
    ∀ {l : List Char}, x ∈ dropTrailWs l → x ∈ l := by
  intro l
  induction l with
  | nil => intro h; simp [dropTrailWs] at h
  | cons c rest ih =>
    intro h
    rw [dropTrailWs] at h
    rcases hr : dropTrailWs rest with _ | ⟨y, ys⟩
    · rw [hr] at h
      by_cases hc : pyWs c
      · simp [hc] at h
      · simp [hc] at h
        simp [h]
    · rw [hr] at h
      rcases List.mem_cons.mp h with h1 | h2
      · simp [h1]
      · exact List.mem_cons_of_mem c (ih (hr ▸ h2))

theorem stripList_idem (l : List Char) : stripList (stripList l) = stripList l := by
  unfold stripList
  rcases hs : dropTrailWs (l.dropWhile pyWs) with _ | ⟨a, t⟩
  · simp [dropTrailWs]
  · have hhead : ∃ t', l.dropWhile pyWs = a :: t' := dropTrailWs_head hs
    rcases hhead with ⟨t', ht'⟩
    have ha : pyWs a = false := dropWhile_head_false ht'
    rw [dropWhile_of_head_false ha, ← hs, dropTrailWs_idem]

theorem mem_of_mem_stripList {x : Char} {l : List Char} (h : x ∈ stripList l) : x ∈ l :=
  mem_of_mem_dropWhile (mem_of_mem_dropTrailWs h)

theorem stripList_of_all_ws {l : List Char} (h : ∀ c ∈ l, pyWs c = true) :
    stripList l = [] := by
  unfold stripList
  have : l.dropWhile pyWs = [] := List.dropWhile_eq_nil_iff.mpr h
  rw [this]
  rfl

theorem hasSubList_of_startsWith :
    ∀ {l pat : List Char}, startsWithList l pat = true → hasSubList l pat = true := by
  intro l pat h
  cases l with
  | nil =>
    cases pat with
    | nil => rfl
    | cons p ps => simp [startsWithList] at h
  | cons c rest => simp [hasSubList, h]

theorem hasSubList_of_dropWhile {p : Char → Bool} {pat : List Char} :
    ∀ {l : List Char}, hasSubList (l.dropWhile p) pat = true → hasSubList l pat = true := by
  intro l
  induction l with
  | nil => intro h; simpa using h
  | cons c rest ih =>
    intro h
    by_cases hc : p c
    · rw [List.dropWhile_cons_of_pos hc] at h
      simp [hasSubList, ih h]
    · rwa [List.dropWhile_cons_of_neg hc] at h

theorem matchSemi_semi_mem :
    ∀ {l r : List Char}, matchSemi l = some r → ';' ∈ l := by
  intro l r h
  unfold matchSemi at h
  rcases hd : l.dropWhile pyWs with _ | ⟨c, rest2⟩
  · rw [hd] at h; simp at h
  · rw [hd] at h
    by_cases hc : c = ';'
    · subst hc
      exact mem_of_mem_dropWhile (hd ▸ List.mem_cons_self ';' rest2)
    · simp [hc] at h

theorem matchAmp_op_sub {l r : List Char} (h : matchAmp l = some r) :
    hasSubList l ['&', '&'] = true ∨ hasSubList l ['|', '|'] = true := by
  unfold matchAmp at h
  rcases hd : l.dropWhile pyWs with _ | ⟨c, rest2⟩
  · rw [hd] at h; simp at h
  · rw [hd] at h
    rcases rest2 with _ | ⟨c2, rest3⟩
    · by_cases h1 : c = '&' <;> by_cases h2 : c = '|' <;> simp [h1, h2] at h
    · by_cases h1 : c = '&'
      · subst h1
        by_cases h2 : c2 = '&'
        · subst h2
          left
          refine hasSubList_of_dropWhile (p := pyWs) ?_
          rw [hd]
          apply hasSubList_of_startsWith
          simp [startsWithList]
        · simp [h2] at h
      · by_cases h2 : c = '|'
        · subst h2
          by_cases h3 : c2 = '|'
          · subst h3
            right
            refine hasSubList_of_dropWhile (p := pyWs) ?_
            rw [hd]
            apply hasSubList_of_startsWith
            simp [startsWithList]
          · simp [h1, h3] at h
        · simp [h1, h2] at h

/-- With no match possible anywhere (no semicolon in the input), the
semicolon scanner returns the single whole piece. -/
theorem semiScanF_id :
    ∀ (fuel : Nat) (l : List Char) (prev : Option Char) (acc : List Char),
      l.length < fuel → ';' ∉ l →
      semiScanF fuel prev l acc = [acc.reverse ++ l] := by
  intro fuel
  induction fuel with
  | zero => intro l prev acc h; exact absurd h (Nat.not_lt_zero _)
  | succ f ih =>
    intro l prev acc hlen hmem
    cases l with
    | nil => simp [semiScanF]
    | cons c rest =>
      have hm : matchSemi (c :: rest) = none := by
        cases hs : matchSemi (c :: rest) with
        | none => rfl
        | some r => exact absurd (matchSemi_semi_mem hs) hmem
      have hrest : ';' ∉ rest := fun hx => hmem (List.mem_cons_of_mem c hx)
      have hrl : rest.length < f := by
        simp only [List.length_cons] at hlen
        omega
      rw [semiScanF]
      by_cases hq : (prev.map isQuoteCh).getD false
      · simp only [hq, if_pos]
        rw [ih rest (some c) (c :: acc) hrl hrest]
        simp
      · simp only [hq, if_neg, Bool.false_eq_true, not_false_iff]
        rw [hm, ih rest (some c) (c :: acc) hrl hrest]
        simp

/-- With no `&&` or `||` in the input, the operator scanner returns the
single whole piece. -/
theorem ampScanF_id :
    ∀ (fuel : Nat) (l : List Char) (acc : List Char),
      l.length < fuel →
      hasSubList l ['&', '&'] = false → hasSubList l ['|', '|'] = false →
      ampScanF fuel l acc = [acc.reverse ++ l] := by
  intro fuel
  induction fuel with
  | zero => intro l acc h; exact absurd h (Nat.not_lt_zero _)
  | succ f ih =>
    intro l acc hlen hamp hbar
    cases l with
    | nil => simp [ampScanF]
    | cons c rest =>
      have hm : matchAmp (c :: rest) = none := by
        cases hs : matchAmp (c :: rest) with
        | none => rfl
        | some r =>
          rcases matchAmp_op_sub hs with h | h
          · rw [h] at hamp; cases hamp
          · rw [h] at hbar; cases hbar
      have hamp' : hasSubList rest ['&', '&'] = false := by
        rw [hasSubList] at hamp
        exact (Bool.or_eq_false_iff.mp hamp).2
      have hbar' : hasSubList rest ['|', '|'] = false := by
        rw [hasSubList] at hbar
        exact (Bool.or_eq_false_iff.mp hbar).2
      have hrl : rest.length < f := by
        simp only [List.length_cons] at hlen
        omega
      rw [ampScanF, hm, ih rest (c :: acc) hrl hamp' hbar']
      simp

theorem semiSplitStr_id {s : String} (h : ';' ∉ s.data) : semiSplitStr s = [s] := by
  unfold semiSplitStr
  rw [semiScanF_id _ _ _ _ (Nat.lt_succ_self _) h]
  simp [string_mk_data]

theorem ampSplitStr_id {s : String}
    (h1 : hasSubList s.data ['&', '&'] = false)
    (h2 : hasSubList s.data ['|', '|'] = false) : ampSplitStr s = [s] := by
  unfold ampSplitStr
  rw [ampScanF_id _ _ _ (Nat.lt_succ_self _) h1 h2]
  simp [string_mk_data]

theorem stripPy_data (s : String) : (stripPy s).data = stripList s.data := rfl

theorem stripPy_idem (s : String) : stripPy (stripPy s) = stripPy s := by
  show String.mk (stripList (stripList s.data)) = String.mk (stripList s.data)
  rw [stripList_idem]

theorem stripPy_eq_empty {s : String} (h : stripList s.data = []) : stripPy s = "" :=
  string_data_eq_nil (by rw [stripPy_data, h])

theorem extract_commands_stripPy {s : String} (h : ';' ∉ s.data) :
    extract_commands (stripPy s) = extract_commands s := by
  have h2 : ';' ∉ (stripPy s).data := fun hx => h (mem_of_mem_stripList hx)
  unfold extract_commands
  rw [semiSplitStr_id h2, semiSplitStr_id h]
  simp only [extractSegs, stripPy_idem]

theorem extractSegs_none_of_fail :
    ∀ (l : List String) (seg : String), seg ∈ l → stripPy seg ≠ "" →
      shlexSplit (stripPy seg) = none → extractSegs l = none := by
  intro l
  induction l with
  | nil => intro seg h; simp at h
  | cons a rest ih =>
    intro seg hmem hs hf
    rcases List.mem_cons.mp hmem with h1 | h2
    · subst h1
      simp only [extractSegs, if_neg hs, hf]
    · have hrest : extractSegs rest = none := ih seg h2 hs hf
      simp only [extractSegs, hrest]
      by_cases ha : stripPy a = ""
      · simp [ha]
      · simp only [if_neg ha]
        cases shlexSplit (stripPy a) <;> simp

theorem prefixed_ne_empty (a b : String) (ha : a ≠ "") : a ++ b ≠ "" :=
  string_append_ne_empty a b (fun h => ha (string_data_eq_nil h))

theorem disallowedMsg_ne (c : String) : disallowedMsg c ≠ "" := by
  unfold disallowedMsg
  rw [String.append_assoc]
  exact prefixed_ne_empty _ _ (by decide)

theorem validate_pkill_false_reason {s r : String}
    (h : validate_pkill_command s = some (false, r)) : r ≠ "" := by
  unfold validate_pkill_command at h
  rcases hs : shlexSplit s with _ | ⟨_ | ⟨t0, ts⟩⟩ <;> rw [hs] at h
  · cases h; decide
  · cases h; decide
  · simp only at h
    rcases hl : (ts.filter (fun t => !headIs t '-')).getLast? with _ | last <;> rw [hl] at h
    · cases h; decide
    · simp only at h
      rcases ht : pkillTarget last with _ | target <;> rw [ht] at h
      · cases h
      · simp only at h
        by_cases hmem : target ∈ allowed_process_names
        · rw [if_pos hmem] at h; cases h
        · rw [if_neg hmem] at h; cases h; decide

theorem validate_chmod_false_reason {s r : String}
    (h : validate_chmod_command s = (false, r)) : r ≠ "" := by
  unfold validate_chmod_command at h
  rcases hs : shlexSplit s with _ | ⟨_ | ⟨t0, ts⟩⟩ <;> rw [hs] at h
  · cases h; decide
  · cases h; decide
  · simp only at h
    by_cases h0 : t0 = "chmod"
    · rw [if_pos h0] at h
      rcases ha : chmodArgs ts none with _ | ⟨_ | mode⟩ <;> rw [ha] at h
      · cases h; decide
      · cases h; decide
      · simp only at h
        by_cases hm : chmodModeMatch mode
        · rw [if_pos hm] at h; cases h
        · rw [if_neg hm] at h
          cases h
          exact prefixed_ne_empty _ _ (by decide)
    · rw [if_neg h0] at h; cases h; decide

theorem validate_init_false_reason {s r : String}
    (h : validate_init_script s = (false, r)) : r ≠ "" := by
  unfold validate_init_script at h
  rcases hs : shlexSplit s with _ | ⟨_ | ⟨t0, ts⟩⟩ <;> rw [hs] at h
  · cases h; decide
  · cases h; decide
  · simp only at h
    by_cases h0 : (t0 = "./init.sh" || pyEndsWith t0 "/init.sh") = true
    · rw [if_pos h0] at h; cases h
    · rw [if_neg h0] at h
      cases h
      exact prefixed_ne_empty _ _ (by decide)

theorem subValidate_false_reason {cmd seg r : String}
    (h : subValidate cmd seg = some (false, r)) : r ≠ "" := by
  unfold subValidate at h
  by_cases h1 : cmd = "pkill"
  · rw [if_pos h1] at h
    exact validate_pkill_false_reason h
  · rw [if_neg h1] at h
    by_cases h2 : cmd = "chmod"
    · rw [if_pos h2] at h
      exact validate_chmod_false_reason (Option.some.inj h)
    · rw [if_neg h2] at h
      by_cases h3 : cmd = "init.sh"
      · rw [if_pos h3] at h
        exact validate_init_false_reason (Option.some.inj h)
      · rw [if_neg h3] at h
        cases h

theorem checkCmds_reason (cmdF : String) (segs : List String) :
    ∀ (l : List String) (b : Bool) (r : String),
      checkCmds cmdF segs l = some (b, r) → (r = "" ↔ b = true) := by
  intro l
  induction l with
  | nil =>
    intro b r h
    rw [checkCmds] at h
    cases h
    simp
  | cons c rest ih =>
    intro b r h
    rw [checkCmds] at h
    by_cases hca : c ∈ ALLOWED_COMMANDS
    · rw [if_pos hca] at h
      by_cases hce : c ∈ EXTRA_VALIDATION
      · rw [if_pos hce] at h
        rcases hs : subValidate c (segmentFor c segs cmdF) with _ | ⟨b', reason⟩ <;>
          rw [hs] at h
        · cases h
        · cases b' with
          | true => exact ih b r (by simpa using h)
          | false =>
            simp only [Bool.false_eq_true, if_neg] at h
            cases h
            simp only [Bool.false_eq_true, iff_false]
            exact subValidate_false_reason hs
      · rw [if_neg hce] at h
        exact ih b r h
    · rw [if_neg hca] at h
      cases h
      simp only [Bool.false_eq_true, iff_false]
      exact disallowedMsg_ne c

theorem checkCmds_not_allow (cmdF : String) (segs : List String) :
    ∀ (l : List String), (∃ c ∈ l, c ∉ ALLOWED_COMMANDS) →
      ∀ r, checkCmds cmdF segs l ≠ some (true, r) := by
  intro l
  induction l with
  | nil => intro h; simp at h
  | cons c rest ih =>
    rintro ⟨c', hc', hbad⟩ r h
    rw [checkCmds] at h
    by_cases hca : c ∈ ALLOWED_COMMANDS
    · have hc'rest : c' ∈ rest := by
        rcases List.mem_cons.mp hc' with h1 | h2
        · subst h1; exact absurd hca hbad
        · exact h2
      rw [if_pos hca] at h
      by_cases hce : c ∈ EXTRA_VALIDATION
      · rw [if_pos hce] at h
        rcases hs : subValidate c (segmentFor c segs cmdF) with _ | ⟨b', reason⟩ <;>
          rw [hs] at h
        · cases h
        · cases b' with
          | true => exact ih ⟨c', hc'rest, hbad⟩ r (by simpa using h)
          | false =>
            simp only [Bool.false_eq_true, if_neg] at h
            cases h
      · rw [if_neg hce] at h
        exact ih ⟨c', hc'rest, hbad⟩ r h
    · rw [if_neg hca] at h
      cases h

theorem checkCmds_first_bad (cmdF : String) (segs : List String) :
    ∀ (l : List String) (bad : String) (rest' : List String),
      l.dropWhile allowedB = bad :: rest' →
      (∀ c ∈ l.takeWhile allowedB, c ∉ EXTRA_VALIDATION) →
      checkCmds cmdF segs l = some (false, disallowedMsg bad) := by
  intro l
  induction l with
  | nil => intro bad rest' h; simp at h
  | cons c rest ih =>
    intro bad rest' hdrop htake
    by_cases hca : c ∈ ALLOWED_COMMANDS
    · have hb : allowedB c = true := by simp [allowedB, hca]
      rw [List.dropWhile_cons_of_pos hb] at hdrop
      rw [List.takeWhile_cons_of_pos hb] at htake
      have hcE : c ∉ EXTRA_VALIDATION := htake c (List.mem_cons_self c _)
      have htake' : ∀ x ∈ rest.takeWhile allowedB, x ∉ EXTRA_VALIDATION :=
        fun x hx => htake x (List.mem_cons_of_mem c hx)
      rw [checkCmds, if_pos hca, if_neg hcE]
      exact ih bad rest' hdrop htake'
    · have hb : allowedB c = false := by simp [allowedB, hca]
      rw [List.dropWhile_cons_of_neg (by simp [hb])] at hdrop
      cases hdrop
      rw [checkCmds, if_neg hca]

theorem chmodArgs_none_of_flag :
    ∀ (l : List String) (m : Option String) (t : String),
      t ∈ l → headIs t '-' = true → chmodArgs l m = none := by
  intro l
  induction l with
  | nil => intro m t h; simp at h
  | cons a rest ih =>
    intro m t hmem hflag
    rcases List.mem_cons.mp hmem with h1 | h2
    · subst h1
      rw [chmodArgs, if_pos hflag]
    · rw [chmodArgs]
      by_cases ha : headIs a '-'
      · rw [if_pos ha]
      · rw [if_neg ha]
        by_cases hm : m.isNone <;> simp only [hm, if_pos, if_neg] <;>
          exact ih _ t h2 hflag

theorem chmodArgs_some_noflag :
    ∀ (l : List String) (m o : Option String),
      chmodArgs l m = some o → ∀ t ∈ l, headIs t '-' = false := by
  intro l
  induction l with
  | nil => intro m o _ t h; simp at h
  | cons a rest ih =>
    intro m o h t hmem
    rw [chmodArgs] at h
    by_cases ha : headIs a '-'
    · rw [if_pos ha] at h; cases h
    · rw [if_neg ha] at h
      rcases List.mem_cons.mp hmem with h1 | h2
      · subst h1; simpa using ha
      · by_cases hm : m.isNone <;> simp only [hm, if_pos, if_neg] at h <;>
          exact ih _ o h t h2

theorem chmodArgs_noflag_keep :
    ∀ (l : List String) (x : String), (∀ t ∈ l, headIs t '-' = false) →
      chmodArgs l (some x) = some (some x) := by
  intro l
  induction l with
  | nil => intro x _; rfl
  | cons a rest ih =>
    intro x h
    rw [chmodArgs, if_neg (by simp [h a (List.mem_cons_self a _)])]
    simp only [Option.isNone_some, Bool.false_eq_true, if_neg]
    exact ih x (fun t ht => h t (List.mem_cons_of_mem a ht))

theorem chmodArgs_noflag_head :
    ∀ (l : List String), (∀ t ∈ l, headIs t '-' = false) →
      chmodArgs l none = some l.head? := by
  intro l h
  cases l with
  | nil => rfl
  | cons a rest =>
    rw [chmodArgs, if_neg (by simp [h a (List.mem_cons_self a _)])]
    simp only [Option.isNone_none, if_pos]
    exact chmodArgs_noflag_keep rest a (fun t ht => h t (List.mem_cons_of_mem a ht))

theorem validate_chmod_cons {s t0 : String} {ts : List String}
    (hs : shlexSplit s = some (t0 :: ts)) :
    validate_chmod_command s =
      if t0 = "chmod" then
        match chmodArgs ts none with
        | none => (false, "chmod flags are not allowed")
        | some none => (false, "chmod requires a mode")
        | some (some mode) =>
          if chmodModeMatch mode then (true, "")
          else (false, "chmod only allowed with +x mode, got: " ++ mode)
      else (false, "Not a chmod command") := by
  unfold validate_chmod_command
  rw [hs]

/-! ### Claims -/

/-- Claim C1, counterexample: in `"pkill sshd; badcmd"` the extraction
contains the non-allowlisted basename `"badcmd"`, yet the rejection
reason is the pkill sub-validator's message (the earlier extracted
command `pkill` belongs to the extra-validation subset and its
rejection preempts the allowlist one), not
`"Command 'badcmd' is not in the allowed commands list"`. -/
theorem c1_counterexample :
    "badcmd" ∈ extract_commands "pkill sshd; badcmd" ∧
    "badcmd" ∉ ALLOWED_COMMANDS ∧
    validate_command "pkill sshd; badcmd" = some (false, pkillDenyMsg) ∧
    pkillDenyMsg ≠ disallowedMsg "badcmd" := by
  refine ⟨by decide, by decide, by decide, by decide⟩

/-- Claim C1, amended: if the extraction of the input contains a
non-allowlisted basename (`bad` being the first one), `validate_command`
never returns an allow verdict; and when no extracted command before
`bad` belongs to the extra-validation subset, it rejects with the
reason naming exactly `bad`.  (An earlier extra-validation command may
otherwise preempt with its own sub-validator reason, as in the
counterexample.) -/
theorem c1_amended (s bad : String) (rest' : List String)
    (h : (extract_commands s).dropWhile allowedB = bad :: rest') :
    (∀ r, validate_command s ≠ some (true, r)) ∧
    ((∀ c ∈ (extract_commands s).takeWhile allowedB, c ∉ EXTRA_VALIDATION) →
      validate_command s = some (false, disallowedMsg bad)) := by
  have hne : extract_commands s ≠ [] := by
    intro h0
    rw [h0] at h
    simp at h
  have hs : s ≠ "" := by
    intro h0
    subst h0
    exact hne (by decide)
  have hbadmem : bad ∈ extract_commands s := by
    refine mem_of_mem_dropWhile (p := allowedB) ?_
    rw [h]
    exact List.mem_cons_self _ _
  have hbadnot : bad ∉ ALLOWED_COMMANDS := by
    have := dropWhile_head_false h
    simpa [allowedB] using this
  have hv : validate_command s =
      checkCmds s (split_command_segments s) (extract_commands s) := by
    unfold validate_command
    rw [if_neg hs, if_neg hne]
  constructor
  · intro r hr
    rw [hv] at hr
    exact checkCmds_not_allow s _ _ ⟨bad, hbadmem, hbadnot⟩ r hr
  · intro htk
    rw [hv]
    exact checkCmds_first_bad s _ _ bad rest' h htk

/-- Claim C1, witness: for the input `"badcmd"` the amended theorem's
hypotheses hold and the rejection names `badcmd`. -/
theorem c1_witness :
    validate_command "badcmd" = some (false, disallowedMsg "badcmd") :=
  (c1_amended "badcmd" "badcmd" [] (by decide)).2 (by decide)

/-- Claim C2, counterexample: for `"a&&b"` the direct extraction yields
`["a&&b"]` (shlex does not split on an unspaced `&&`), while segmenting
first splits on the `&&` and yields `["a", "b"]`. -/
theorem c2_counterexample :
    extract_commands "a&&b" = ["a&&b"] ∧
    ((split_command_segments "a&&b").map extract_commands).flatten = ["a", "b"] ∧
    ((split_command_segments "a&&b").map extract_commands).flatten ≠
      extract_commands "a&&b" := by
  refine ⟨by decide, by decide, by decide⟩

/-- Claim C2, amended: the concatenation of the per-segment extractions
equals the direct extraction for inputs containing no `&&` or `||`
substring and no semicolon (the operator split is not quote-aware, and
with a semicolon a parse failure in one segment empties the direct
extraction but not the concatenation, so such inputs can disagree). -/
theorem c2_amended (s : String)
    (h1 : hasSubList s.data ['&', '&'] = false)
    (h2 : hasSubList s.data ['|', '|'] = false)
    (h3 : ';' ∉ s.data) :
    ((split_command_segments s).map extract_commands).flatten = extract_commands s := by
  unfold split_command_segments
  rw [ampSplitStr_id h1 h2]
  simp only [List.map_cons, List.map_nil, List.flatten]
  rw [semiSplitStr_id h3]
  simp only [List.map_cons, List.map_nil]
  by_cases he : stripPy s = ""
  · simp only [he]
    have hfil : ([""].filter (fun x => x ≠ "")) = ([] : List String) := by decide
    rw [hfil]
    unfold extract_commands
    rw [semiSplitStr_id h3]
    simp [extractSegs, he]
  · have hfil : ([stripPy s].filter (fun x => x ≠ "")) = [stripPy s] := by
      simp [he]
    rw [hfil]
    simp only [List.map_cons, List.map_nil, List.flatten, List.append_nil]
    exact extract_commands_stripPy h3

/-- Claim C2, witness: the amended consistency at `"ls -l"`. -/
theorem c2_witness :
    ((split_command_segments "ls -l").map extract_commands).flatten =
      extract_commands "ls -l" :=
  c2_amended "ls -l" (by decide) (by decide) (by decide)

/-- Claim C3: if word-splitting of some stripped non-empty
semicolon-segment fails, the whole extraction is empty and a non-empty
input is rejected with `"Could not parse command: <command>"` — the
input is never allowed. -/
theorem c3 (s seg : String) (hs : s ≠ "") (hmem : seg ∈ semiSplitStr s)
    (hne : stripPy seg ≠ "") (hfail : shlexSplit (stripPy seg) = none) :
    extract_commands s = [] ∧
    validate_command s = some (false, "Could not parse command: " ++ s) := by
  have hex : extract_commands s = [] := by
    unfold extract_commands
    rw [extractSegs_none_of_fail (semiSplitStr s) seg hmem hne hfail]
    rfl
  refine ⟨hex, ?_⟩
  unfold validate_command
  rw [if_neg hs, if_pos hex]

/-- Claim C3, witness: the unbalanced quote in `"ls 'a"` aborts
extraction and forces the fail-closed rejection. -/
theorem c3_witness :
    extract_commands "ls 'a" = [] ∧
    validate_command "ls 'a" = some (false, "Could not parse command: " ++ "ls 'a") :=
  c3 "ls 'a" "ls 'a" (by decide) (by decide) (by decide) (by decide)

/-- Claim C4, counterexample: the whitespace-only input `" "` is not
rejected with reason `"Empty command"` (it is truthy in Python, so it
reaches the extraction check instead). -/
theorem c4_counterexample :
    validate_command " " = some (false, "Could not parse command:  ") ∧
    (∀ b : Bool, validate_command " " ≠ some (b, "Empty command")) := by
  refine ⟨by decide, by decide⟩

/-- Claim C4, amended: only the empty string is rejected with reason
`"Empty command"`; a non-empty input consisting solely of whitespace is
rejected with `"Could not parse command: <command>"`. -/
theorem c4_amended :
    validate_command "" = some (false, "Empty command") ∧
    ∀ s : String, s ≠ "" → (∀ c ∈ s.data, pyWs c = true) →
      validate_command s = some (false, "Could not parse command: " ++ s) := by
  refine ⟨by decide, ?_⟩
  intro s hs hws
  have hsemi : ';' ∉ s.data := by
    intro hx
    have := hws ';' hx
    exact absurd this (by decide)
  have hstrip : stripPy s = "" := stripPy_eq_empty (stripList_of_all_ws hws)
  have hex : extract_commands s = [] := by
    unfold extract_commands
    rw [semiSplitStr_id hsemi]
    simp [extractSegs, hstrip]
  unfold validate_command
  rw [if_neg hs, if_pos hex]

/-- Claim C4, witness: the amended rejection at the whitespace-only
input `" "`. -/
theorem c4_witness :
    validate_command " " = some (false, "Could not parse command: " ++ " ") :=
  c4_amended.2 " " (by decide) (by decide)

/-- Claim C5, counterexample: `re.match(r"^[ugoa]*\+x$", mode)` also
accepts a mode with one trailing newline (Python's `$` matches just
before a final newline), so the quoted mode `"+x\n"` is accepted by the
sub-validator and the whole command is allowed, although the mode does
not consist of subject classes followed by the literal `"+x"` alone. -/
theorem c5_counterexample :
    shlexSplit "chmod \"+x\n\" f" = some ["chmod", "+x\n", "f"] ∧
    validate_command "chmod \"+x\n\" f" = some (true, "") ∧
    specModeExact "+x\n" = false := by
  refine ⟨by decide, by decide, by decide⟩

/-- Claim C5, amended: `validate("chmod +x init.sh")` allows,
`validate("chmod 777 init.sh")` and `validate("chmod -R +x dir")`
reject; on a `chmod`-headed token list any token after the command name
beginning with `'-'` forces the rejection
`"chmod flags are not allowed"`, and the sub-validator accepts exactly
when there is no flag token and the first remaining token matches zero
or more subject classes from `u`,`g`,`o`,`a` followed by `"+x"`,
optionally followed by one trailing newline (Python `$` semantics);
remaining tokens are unconstrained file paths. -/
theorem c5_amended :
    validate_command "chmod +x init.sh" = some (true, "") ∧
    validate_command "chmod 777 init.sh" =
      some (false, "chmod only allowed with +x mode, got: 777") ∧
    validate_command "chmod -R +x dir" = some (false, "chmod flags are not allowed") ∧
    (∀ (s : String) (toks : List String), shlexSplit s = some toks →
      toks.head? = some "chmod" →
      ((∃ t ∈ toks.tail, headIs t '-' = true) →
        validate_chmod_command s = (false, "chmod flags are not allowed")) ∧
      (validate_chmod_command s = (true, "") ↔
        (∀ t ∈ toks.tail, headIs t '-' = false) ∧
        ∃ m rest, toks.tail = m :: rest ∧ chmodModeMatch m = true)) := by
  refine ⟨by decide, by decide, by decide, ?_⟩
  intro s toks hs hhead
  rcases toks with _ | ⟨t0, ts⟩
  · simp at hhead
  · have ht0 : t0 = "chmod" := by simpa using hhead
    subst ht0
    simp only [List.tail_cons]
    constructor
    · rintro ⟨t, htmem, htflag⟩
      rw [validate_chmod_cons hs, chmodArgs_none_of_flag ts none t htmem htflag]
      simp
    · constructor
      · intro hacc
        rw [validate_chmod_cons hs] at hacc
        simp only [if_pos rfl] at hacc
        rcases ha : chmodArgs ts none with _ | ⟨_ | m⟩ <;> rw [ha] at hacc
        · simp at hacc
        · simp at hacc
        · have hnf : ∀ t ∈ ts, headIs t '-' = false :=
            chmodArgs_some_noflag ts none (some m) ha
          have hh : chmodArgs ts none = some ts.head? := chmodArgs_noflag_head ts hnf
          rw [ha] at hh
          have hts : ts.head? = some m := (Option.some.inj hh).symm
          by_cases hm : chmodModeMatch m
          · cases ts with
            | nil => simp at hts
            | cons a r =>
              have ham : a = m := by simpa using hts
              subst ham
              exact ⟨hnf, a, r, rfl, hm⟩
          · simp [hm] at hacc
      · rintro ⟨hnf, m, rest, hts, hm⟩
        subst hts
        have hh : chmodArgs (m :: rest) none = some (some m) := by
          rw [chmodArgs_noflag_head _ hnf]
          simp
        rw [validate_chmod_cons hs, hh]
        simp [hm]

/-- Claim C5, witness: the amended acceptance condition instantiated at
`"chmod u+x f"`. -/
theorem c5_witness : validate_chmod_command "chmod u+x f" = (true, "") :=
  ((c5_amended.2.2.2 "chmod u+x f" ["chmod", "u+x", "f"]
      (by decide) (by decide)).2).mpr ⟨by decide, "u+x", ["f"], rfl, by decide⟩

/-- Claim C6, counterexample: `validate("pkill -9 sshd")` rejects, but
the reason is the fixed message listing the allowed development
processes; it does not mention the disallowed target `sshd`. -/
theorem c6_counterexample :
    validate_command "pkill -9 sshd" = some (false, pkillDenyMsg) ∧
    hasSubList pkillDenyMsg.data "sshd".data = false := by
  refine ⟨by decide, by decide⟩

/-- Claim C6, amended: `validate("pkill node")` allows and
`validate("pkill -9 sshd")` rejects with the fixed reason listing the
allowed development-process names (which does not mention the target);
in general the sub-validator drops flag tokens, rejects when no
non-flag argument remains, takes the last non-flag argument (its first
whitespace-separated word when it contains a space — raising an
uncaught error when that split is empty) as the target, and accepts
exactly when the target is in the fixed set. -/
theorem c6_amended :
    validate_command "pkill node" = some (true, "") ∧
    validate_command "pkill -9 sshd" = some (false, pkillDenyMsg) ∧
    hasSubList pkillDenyMsg.data "sshd".data = false ∧
    (∀ (s t0 : String) (ts : List String), shlexSplit s = some (t0 :: ts) →
      (ts.filter (fun t => !headIs t '-') = [] →
        validate_pkill_command s = some (false, "pkill requires a process name")) ∧
      (∀ last target, (ts.filter (fun t => !headIs t '-')).getLast? = some last →
        pkillTarget last = some target →
        (validate_pkill_command s = some (true, "") ↔
          target ∈ allowed_process_names))) := by
  refine ⟨by decide, by decide, by decide, ?_⟩
  intro s t0 ts hs
  constructor
  · intro hargs
    unfold validate_pkill_command
    rw [hs]
    simp only [hargs, List.getLast?_nil]
  · intro last target hlast htgt
    unfold validate_pkill_command
    rw [hs]
    simp only [hlast, htgt]
    by_cases hmem : target ∈ allowed_process_names
    · rw [if_pos hmem]
      simp [hmem]
    · rw [if_neg hmem]
      constructor
      · intro hcontra
        have := Option.some.inj hcontra
        cases this
      · intro hcontra
        exact absurd hcontra hmem

/-- Claim C6, witness: the amended acceptance condition instantiated at
`"pkill -9 -f node"`. -/
theorem c6_witness : validate_pkill_command "pkill -9 -f node" = some (true, "") :=
  (((c6_amended.2.2.2 "pkill -9 -f node" "pkill" ["-9", "-f", "node"]
      (by decide)).2) "node" "node" (by decide) (by decide)).mpr (by decide)

/-- Claim C7: `validate("./init.sh")` allows, `validate("bash init.sh")`
rejects because the command position holds `bash`, which is not
allowlisted; and the local-script sub-validator accepts exactly when
tokenization succeeds and the first token is `"./init.sh"` or a path
ending in `"/init.sh"`. -/
theorem c7 :
    validate_command "./init.sh" = some (true, "") ∧
    validate_command "bash init.sh" =
      some (false, "Command 'bash' is not in the allowed commands list") ∧
    (∀ s : String, validate_init_script s = (true, "") ↔
      ∃ (t0 : String) (rest : List String), shlexSplit s = some (t0 :: rest) ∧
        (t0 = "./init.sh" ∨ pyEndsWith t0 "/init.sh" = true)) := by
  refine ⟨by decide, by decide, ?_⟩
  intro s
  unfold validate_init_script
  rcases hs : shlexSplit s with _ | ⟨_ | ⟨t0, rest⟩⟩
  · constructor
    · intro h
      simp at h
    · rintro ⟨t0, rest, habs, _⟩
      cases habs
  · constructor
    · intro h
      simp at h
    · rintro ⟨t0, rest, habs, _⟩
      cases habs
  · simp only []
    by_cases hc : (t0 = "./init.sh" || pyEndsWith t0 "/init.sh") = true
    · rw [if_pos hc]
      constructor
      · intro _
        refine ⟨t0, rest, rfl, ?_⟩
        simpa using hc
      · intro _
        rfl
    · rw [if_neg hc]
      constructor
      · intro h
        simp at h
      · rintro ⟨t0', rest', heq, hp⟩
        have h1 : t0' = t0 := by
          have := (List.cons.inj (Option.some.inj heq)).1
          exact this.symm
        subst h1
        exact absurd (show (t0' = "./init.sh" || pyEndsWith t0' "/init.sh") = true by
          simpa using hp) hc

/-- Claim C7, witness: the sub-validator's acceptance condition
instantiated at a path ending in `/init.sh`. -/
theorem c7_witness : validate_init_script "x/init.sh" = (true, "") :=
  (c7.2.2 "x/init.sh").mpr ⟨"x/init.sh", [], by decide, Or.inr (by decide)⟩

/-- Claim C8: whenever `validate_command` returns a verdict (it raises
no exception), the reason is the empty string exactly when the verdict
allows. -/
theorem c8 (s : String) (b : Bool) (r : String)
    (h : validate_command s = some (b, r)) : r = "" ↔ b = true := by
  unfold validate_command at h
  by_cases hs : s = ""
  · rw [if_pos hs] at h
    cases h
    decide
  · rw [if_neg hs] at h
    by_cases he : extract_commands s = []
    · rw [if_pos he] at h
      cases h
      simp only [Bool.false_eq_true, iff_false]
      exact prefixed_ne_empty _ _ (by decide)
    · rw [if_neg he] at h
      exact checkCmds_reason s _ _ b r h

/-- Claim C8, witness: the equivalence instantiated at the rejected
input `"badcmd"`, whose reason is non-empty. -/
theorem c8_witness : disallowedMsg "badcmd" = "" ↔ false = true :=
  c8 "badcmd" false (disallowedMsg "badcmd") (by decide)

/-- Claim C9: when no segment's extraction contains an
extra-validation command found in the whole input, the segment lookup
falls back to the entire original command string; for
`pkill "a && b" node` the quote-blind operator split produces only
unparsable segments, so the pkill sub-validator runs on the full input
and its allow verdict decides the outcome. -/
theorem c9 :
    (∀ (cmd s : String),
      (∀ seg ∈ split_command_segments s, cmd ∉ extract_commands seg) →
      segmentFor cmd (split_command_segments s) s = s) ∧
    "pkill" ∈ extract_commands "pkill \"a && b\" node" ∧
    (∀ seg ∈ split_command_segments "pkill \"a && b\" node",
      "pkill" ∉ extract_commands seg) ∧
    validate_command "pkill \"a && b\" node" = some (true, "") := by
  refine ⟨?_, by decide, by decide, by decide⟩
  intro cmd s h
  unfold segmentFor
  have hfind : (split_command_segments s).find?
      (fun seg => cmd ∈ extract_commands seg) = none := by
    rw [List.find?_eq_none]
    intro x hx
    simp only [decide_eq_true_eq]
    exact h x hx
  rw [hfind]

/-- Claim C9, witness: the fallback lemma instantiated at a command
name absent from every segment of `"ls"`. -/
theorem c9_witness : segmentFor "x" (split_command_segments "ls") "ls" = "ls" :=
  c9.1 "x" "ls" (by decide)

/-- Claim C10: when `chmod` is among the extracted basenames but the
segment handed to the chmod sub-validator does not have the literal
first token `"chmod"` (an absolute path, or a pipeline segment headed
by another command), the sub-validator rejects with
`"Not a chmod command"` and `validate_command` returns that reason,
even though every extracted basename is allowlisted. -/
theorem c10 :
    validate_command "/bin/chmod +x f" = some (false, "Not a chmod command") ∧
    validate_command "ls | chmod +x f" = some (false, "Not a chmod command") ∧
    (∀ (s : String) (toks : List String), shlexSplit s = some toks →
      toks.head? ≠ some "chmod" →
      validate_chmod_command s = (false, "Not a chmod command")) := by
  refine ⟨by decide, by decide, ?_⟩
  intro s toks hs hh
  rcases toks with _ | ⟨t0, ts⟩
  · unfold validate_chmod_command
    rw [hs]
  · have ht0 : ¬ (t0 = "chmod") := by
      intro hc
      exact hh (by rw [hc]; rfl)
    rw [validate_chmod_cons hs, if_neg ht0]

/-- Claim C10, witness: the sub-validator's rejection instantiated at a
segment headed by `"ls"`. -/
theorem c10_witness : validate_chmod_command "ls -l" = (false, "Not a chmod command") :=
  c10.2.2 "ls -l" ["ls", "-l"] (by decide) (by decide)

end SecurityHooks
